import Mathlib

/-!
Verification of the FASTQ sample-pairing resolver of
`projects/comp_bio/Basic_alignment_NF_SM/utils/generate_config.py`
(function `find_fastq_pairs`, lines 35-113, plus the directory gate of
`main`, lines 331-334).

The Python code is shallowly embedded:

* a filesystem path is a `List Char`; `basename` is `os.path.basename`
  (the part after the last `/`);
* each of the five regular expressions of lines 49-60 is embedded as a
  matcher for its suffix part (everything after the leading greedy group
  `(.+)`), together with `matchGroups`, which reproduces the greedy
  backtracking of `re.match`: the leading group takes the longest
  newline-free prefix whose remainder the suffix matcher accepts.  `\d+`
  is embedded as maximal munch, which coincides with backtracking
  because each `\d+` in the patterns is followed by `_`; `$` accepts
  the end of the string or a single trailing newline, as in Python;
* the mutable dict `samples` of line 37 is an insertion-ordered
  association list (`setSlot` updates an existing key in place and
  appends a fresh key, as a Python dict does), and `matched_files`
  (line 63) is a list used as a set;
* both the pattern pass (lines 65-82) and the fallback pass
  (lines 85-103) perform the same step shape — skip a file already in
  `matched_files`, classify its basename, and on success store the file
  in the extracted sample/mate slot and mark it matched — so the step is
  defined once (`resolveStep`) and instantiated with the two
  classifiers;
* the `log` field of the state is a ghost record of the slot-assignment
  statements (lines 81, 96 and 102); it influences nothing and exists
  only so that properties about assignments can be stated;
* the warnings printed at line 111 are returned as a list of message
  strings; the validation loop of lines 105-113 is `validate`;
* the enumeration of candidate files by the four `glob` calls of
  lines 43-46 is `enumerateFastqs` (names from the directory and from
  its immediate subdirectories, grouped by extension in glob order;
  glob's special-casing of dot-files is not modelled);
* the directory gate of `main` (lines 331-334: exit when the supplied
  path is not a listable directory) is `resolveFromDir`, whose input is
  `none` for an unreadable directory and `some files` for a listable
  one.
-/

/-- A filesystem path, as the list of its characters. -/
abbrev FPath := List Char

/-- The part of a path after its last `/` — `os.path.basename` on POSIX. -/
def basename (p : FPath) : FPath :=
  p.foldl (fun acc c => if c = '/' then [] else acc ++ [ c ]) []

/-- A mate index: the `R1`/`R2` key chosen by `f"R{read_number}"` at line 81. -/
inductive Mate where
  | R1 : Mate
  | R2 : Mate
deriving DecidableEq, Repr

/-- The two optional slots of one `samples[sample_name]` dict value
(line 79: `{"R1": None, "R2": None}`). -/
structure SampleReads where
  r1 : Option FPath
  r2 : Option FPath
deriving DecidableEq, Repr

/-- The value both slots of which are unset (line 79). -/
def emptyReads : SampleReads :=
  { r1 := none, r2 := none }

/-- Read one slot of a record. -/
def slotGet (r : SampleReads) (m : Mate) : Option FPath :=
  match m with
  | Mate.R1 => r.r1
  | Mate.R2 => r.r2

/-- Overwrite one slot of a record (the assignment of lines 81, 96, 102:
unconditional, with no check that the slot is empty). -/
def slotSet (r : SampleReads) (m : Mate) (f : FPath) : SampleReads :=
  match m with
  | Mate.R1 => { r with r1 := some f }
  | Mate.R2 => { r with r2 := some f }

/-- The `samples` dict of line 37: an insertion-ordered association list
from sample name to its record. -/
abbrev Samples := List (List Char × SampleReads)

/-- Lookup in the `samples` dict. -/
def dictLookup (s : Samples) (n : List Char) : Option SampleReads :=
  match s with
  | [] => none
  | e :: rest => if e.1 = n then some e.2 else dictLookup rest n

/-- Lines 78-81: create the key with two empty slots when it is absent
(appending it, as a Python dict does), then overwrite the addressed slot. -/
def setSlot (s : Samples) (n : List Char) (m : Mate) (f : FPath) : Samples :=
  match s with
  | [] => [ (n, slotSet emptyReads m f) ]
  | e :: rest => if e.1 = n then (n, slotSet e.2 m f) :: rest else e :: setSlot rest n m f

/-- The slot `m` of sample `n`, `none` when the sample is absent. -/
def slotVal (s : Samples) (n : List Char) (m : Mate) : Option FPath :=
  match dictLookup s n with
  | none => none
  | some r => slotGet r m

/-- Consume a literal token, returning the rest of the input. -/
def litThen (s l : List Char) : Option (List Char) :=
  if s.isPrefixOf l then some (l.drop s.length) else none

/-- Consume `\d+` by maximal munch (at least one ASCII digit). -/
def digitsThen (l : List Char) : Option (List Char) :=
  match l with
  | [] => none
  | c :: rest => if c.isDigit then some (rest.dropWhile Char.isDigit) else none

/-- Consume `([12])`, returning the extracted mate index. -/
def mateThen (l : List Char) : Option (Mate × List Char) :=
  match l with
  | [] => none
  | c :: rest =>
    if c = '1' then some (Mate.R1, rest)
    else if c = '2' then some (Mate.R2, rest)
    else none

/-- Python's `$`: the end of the string, or a single trailing newline. -/
def dollarEnd (l : List Char) : Bool :=
  match l with
  | [] => true
  | [ c ] => c = '\n'
  | _ => false

/-- The token `.fastq.gz` (the `(ast)?` branch taken). -/
def extFastq : List Char := ".fastq.gz".toList

/-- The token `.fq.gz` (the `(ast)?` branch not taken). -/
def extFq : List Char := ".fq.gz".toList

/-- The tail `\.f(ast)?q\.gz$` of every pattern. -/
def extEnd (l : List Char) : Bool :=
  match litThen extFastq l with
  | some r => dollarEnd r
  | none =>
    match litThen extFq l with
    | some r => dollarEnd r
    | none => false

/-- The tail `.+\.f(ast)?q\.gz$` of pattern 4: at least one newline-free
character, then the extension. -/
def dotPlusExt (l : List Char) : Bool :=
  match l with
  | [] => false
  | c :: rest => (c != '\n') && (extEnd rest || dotPlusExt rest)

/-- Suffix of pattern 1 (line 51): `_S\d+_L\d+_R([12])_001\.f(ast)?q\.gz$`. -/
def sufIllumina (l : List Char) : Option Mate := do
  let l ← litThen "_S".toList l
  let l ← digitsThen l
  let l ← litThen "_L".toList l
  let l ← digitsThen l
  let l ← litThen "_R".toList l
  let (m, l) ← mateThen l
  let l ← litThen "_001".toList l
  if extEnd l then pure m else none

/-- Suffix of pattern 2 (line 53): `_R([12])\.f(ast)?q\.gz$`. -/
def sufSimpleR (l : List Char) : Option Mate := do
  let l ← litThen "_R".toList l
  let (m, l) ← mateThen l
  if extEnd l then pure m else none

/-- Suffix of pattern 3 (line 55): `_([12])\.f(ast)?q\.gz$`. -/
def sufNum (l : List Char) : Option Mate := do
  let l ← litThen "_".toList l
  let (m, l) ← mateThen l
  if extEnd l then pure m else none

/-- Suffix of pattern 4 (line 57): `_R([12])_.+\.f(ast)?q\.gz$`. -/
def sufRExtra (l : List Char) : Option Mate := do
  let l ← litThen "_R".toList l
  let (m, l) ← mateThen l
  let l ← litThen "_".toList l
  if dotPlusExt l then pure m else none

/-- Suffix of pattern 5 (line 59): `_L\d+_([12])\.f(ast)?q\.gz$`. -/
def sufLane (l : List Char) : Option Mate := do
  let l ← litThen "_L".toList l
  let l ← digitsThen l
  let l ← litThen "_".toList l
  let (m, l) ← mateThen l
  if extEnd l then pure m else none

/-- Greedy search for the split of `re.match(r'(.+)<suffix>', b)`:
try the longest leading group first (an engine backtracks from the
longest), accepting a split only when the group is newline-free (`.`
does not match a newline) and the suffix matcher accepts the remainder. -/
def matchGroupsGo (suf : List Char → Option Mate) (b : List Char) : Nat → Option (List Char × Mate)
  | 0 => none
  | i + 1 =>
    if (b.take (i + 1)).all (fun c => c != '\n') then
      match suf (b.drop (i + 1)) with
      | some m => some (b.take (i + 1), m)
      | none => matchGroupsGo suf b i
    else matchGroupsGo suf b i

/-- Result of `re.match` for one pattern on a basename: the extracted
sample name (group 1) and mate index (group 2), or `none`. -/
def matchGroups (suf : List Char → Option Mate) (b : List Char) : Option (List Char × Mate) :=
  matchGroupsGo suf b b.length

/-- The five pattern suffixes in the priority order of lines 49-60. -/
def patternSufs : List (List Char → Option Mate) :=
  [ sufIllumina, sufSimpleR, sufNum, sufRExtra, sufLane ]

/-- Classification of one file by one structured pattern
(lines 71-76: match the pattern against the basename). -/
def patClassify (suf : List Char → Option Mate) (f : FPath) : Option (List Char × Mate) :=
  matchGroups suf (basename f)

/-- Python's substring test `sep in b`: does `sep` occur contiguously in `b`? -/
def infixOfB (s : List Char) (b : List Char) : Bool :=
  match b with
  | [] => s.isEmpty
  | _ :: rest => s.isPrefixOf b || infixOfB s rest

/-- The prefix of `b` before the first occurrence of `sep`
(`b.split(sep)[0]` for a non-empty `sep`); all of `b` when `sep`
does not occur. -/
def beforeFirst (sep : List Char) (b : List Char) : List Char :=
  match b with
  | [] => []
  | c :: rest => if sep.isPrefixOf (c :: rest) then [] else c :: beforeFirst sep rest

/-- Classification of one file by the fallback heuristic of lines 89-103:
the mate-1 substring tests of line 92 and name extraction of line 93,
else the mate-2 tests of line 98 and name extraction of line 99. -/
def fallbackClassify (f : FPath) : Option (List Char × Mate) :=
  let b := basename f
  if ( infixOfB "_R1".toList b || infixOfB "_1".toList b || infixOfB "_R1_".toList b ) then
    some ((if infixOfB "_R1".toList b then beforeFirst "_R1".toList b else beforeFirst "_1".toList b), Mate.R1)
  else if ( infixOfB "_R2".toList b || infixOfB "_2".toList b || infixOfB "_R2_".toList b ) then
    some ((if infixOfB "_R2".toList b then beforeFirst "_R2".toList b else beforeFirst "_2".toList b), Mate.R2)
  else none

/-- The mutable state threaded through both passes: the `samples` dict,
the `matched_files` set (line 63), and a ghost log of the slot
assignments performed (lines 81, 96, 102) — the log affects nothing. -/
structure ResolveState where
  samples : Samples
  matched : List FPath
  log : List (List Char × Mate × FPath)
deriving DecidableEq, Repr

/-- The state both passes start from. -/
def initState : ResolveState :=
  { samples := [], matched := [], log := [] }

/-- One iteration of either pass body: skip a file in `matched_files`
(lines 68-69 / 86-87), classify its basename, and on success record the
file into the extracted sample/mate slot and mark it matched
(lines 74-82 / 92-103). -/
def resolveStep (cl : FPath → Option (List Char × Mate)) (st : ResolveState) (f : FPath) : ResolveState :=
  if f ∈ st.matched then st
  else
    match cl f with
    | none => st
    | some (n, m) =>
      { samples := setSlot st.samples n m f
        matched := st.matched ++ [ f ]
        log := st.log ++ [ (n, m, f) ] }

/-- The two passes of lines 65-103: the pattern-major structured pass
(outer loop over the five patterns, inner loop over the files), then the
fallback pass over the files still unmatched. -/
def resolveState (files : List FPath) : ResolveState :=
  let st1 := patternSufs.foldl (fun st suf => files.foldl (resolveStep (patClassify suf)) st) initState
  files.foldl (resolveStep fallbackClassify) st1

/-- Whether a record has both mates set (the test of line 108). -/
def isComplete (r : SampleReads) : Bool :=
  r.r1.isSome && r.r2.isSome

/-- The message printed at line 111 for an incomplete sample. -/
def warnMsg (n : List Char) : List Char :=
  "Warning: Sample ".toList ++ n ++ " does not have both R1 and R2 reads. Skipping.".toList

/-- What resolution returns: the validated mapping and the diagnostics
printed while validating. -/
structure ResolveResult where
  valid : Samples
  warnings : List (List Char)
deriving DecidableEq, Repr

/-- The validation loop of lines 105-113: keep the records with both
slots set, emit one warning per record with a slot missing. -/
def validate (s : Samples) : ResolveResult :=
  { valid := s.filter (fun e => isComplete e.2)
    warnings := (s.filter (fun e => ! isComplete e.2)).map (fun e => warnMsg e.1) }

/-- The whole of `find_fastq_pairs` (lines 35-113) on an enumerated list
of candidate files. -/
def find_fastq_pairs (files : List FPath) : ResolveResult :=
  validate (resolveState files).samples

/-- Whether a name ends in `.fastq.gz` or `.fq.gz` — the extensions the
four `glob` calls of lines 43-46 select. -/
def isFastqName (p : FPath) : Bool :=
  extFastq.isSuffixOf p || extFq.isSuffixOf p

/-- The enumeration of lines 43-46: qualifying names directly in the
directory, then in its immediate subdirectories, grouped by extension in
the order of the four `glob` calls. -/
def enumerateFastqs (direct sub : List FPath) : List FPath :=
  direct.filter (fun p => extFastq.isSuffixOf p)
    ++ direct.filter (fun p => extFq.isSuffixOf p)
    ++ sub.filter (fun p => extFastq.isSuffixOf p)
    ++ sub.filter (fun p => extFq.isSuffixOf p)

/-- The only failure mode of resolution: the supplied directory cannot be
enumerated (the gate of lines 331-334 of `main`). -/
inductive ConfigError where
  | InvalidInput : ConfigError
deriving DecidableEq, Repr

/-- Resolution from a directory: `none` models a path that is not a
listable directory (rejected at lines 331-334), `some files` a listable
directory with the given enumerated candidates (handed to
`find_fastq_pairs` at line 346). -/
def resolveFromDir (dir : Option (List FPath)) : Except ConfigError ResolveResult :=
  match dir with
  | none => Except.error ConfigError.InvalidInput
  | some files => Except.ok (find_fastq_pairs files)

/-- Both passes as one list of per-pass classifiers, in priority order:
the five structured patterns of lines 49-60, then the fallback heuristic
of lines 85-103. -/
def allPasses : List (FPath → Option (List Char × Mate)) :=
  patternSufs.map patClassify ++ [ fallbackClassify ]

/-- Folding a list of per-pass classifiers over the file list, each
classifier making one full pass over the files — the generic shape of
which lines 65-82 and lines 85-103 are the two instances. -/
def runPasses (cls : List (FPath → Option (List Char × Mate))) (files : List FPath) (st : ResolveState) : ResolveState :=
  cls.foldl (fun st cl => files.foldl (resolveStep cl) st) st

/-- The verdict of the first classifier in the list that accepts the
file: which sample name and mate slot the file is claimed for. -/
def globalClassify (cls : List (FPath → Option (List Char × Mate))) (f : FPath) : Option (List Char × Mate) :=
  match cls with
  | [] => none
  | cl :: rest =>
    match cl f with
    | some r => some r
    | none => globalClassify rest f

/-- The sample/mate slot the resolver claims a file for: the verdict of
its first accepting structured pattern, or else of the fallback
heuristic.  This is a function of the file alone. -/
def fileClaim (f : FPath) : Option (List Char × Mate) :=
  globalClassify allPasses f

/-- No two distinct files of the list are claimed for the same
sample/mate slot — the premise under which resolution is
order-independent. -/
def UniqueClaims (files : List FPath) : Prop :=
  ∀ f ∈ files, ∀ g ∈ files, f ≠ g → fileClaim f = none ∨ fileClaim f ≠ fileClaim g

/-- Claim-uniqueness relative to a classifier list: at most one file of
the list is claimed for any given sample/mate slot. -/
def ClaimUniq (cls : List (FPath → Option (List Char × Mate))) (files : List FPath) : Prop :=
  ∀ f ∈ files, ∀ g ∈ files, ∀ n m,
    globalClassify cls f = some (n, m) → globalClassify cls g = some (n, m) → f = g

/-- Characterization of the state after running the passes `cls`: the
matched set, every sample/mate slot and the key set of the samples dict
are determined by which files of the input the classifiers claim —
a property of the set of files, not of their order. -/
def ResolverInv (files : List FPath) (cls : List (FPath → Option (List Char × Mate))) (st : ResolveState) : Prop :=
  (∀ p, p ∈ st.matched ↔ p ∈ files ∧ (globalClassify cls p).isSome = true)
  ∧ (∀ n m f, slotVal st.samples n m = some f ↔ f ∈ files ∧ globalClassify cls f = some (n, m))
  ∧ (∀ n, (dictLookup st.samples n).isSome = true ↔ ∃ f ∈ files, ∃ m, globalClassify cls f = some (n, m))

/-- Concrete input: an Illumina-named mate-1 file (the P2 test pair). -/
def exIlluminaR1 : FPath := "run1_S1_L001_R1_001.fastq.gz".toList

/-- Concrete input: an Illumina-named mate-2 file (the P2 test pair). -/
def exIlluminaR2 : FPath := "run1_S1_L001_R2_001.fastq.gz".toList

/-- Concrete input: a simple mate-1 file, matched by pattern 2. -/
def exXR1 : FPath := "x_R1.fastq.gz".toList

/-- Concrete input: a mate-1 file with extra tokens, matched by
pattern 4 to the same sample and mate slot as `exXR1`. -/
def exXR1extra : FPath := "x_R1_extra.fastq.gz".toList

/-- Concrete input: the matching simple mate-2 file. -/
def exXR2 : FPath := "x_R2.fastq.gz".toList

/-- Concrete input: a numeric mate-1 file with the `.fastq.gz` extension. -/
def exX1fastq : FPath := "x_1.fastq.gz".toList

/-- Concrete input: a numeric mate-1 file with the `.fq.gz` extension —
pattern 3 claims it for the same sample and mate slot as `exX1fastq`. -/
def exX1fq : FPath := "x_1.fq.gz".toList

/-- Concrete input: the matching numeric mate-2 file. -/
def exX2 : FPath := "x_2.fastq.gz".toList

/-- Concrete input: a lone mate-1 file (the P1 test). -/
def exAR1only : FPath := "sampleA_R1.fastq.gz".toList

/-- Concrete input: a lone mate-2 file for the same sample name. -/
def exAR2only : FPath := "sampleA_R2.fastq.gz".toList

/-- Concrete input: a qualifying file no pattern and no fallback token
matches. -/
def exNoMatch : FPath := "data.fastq.gz".toList

/-- Concrete input: a basename containing both a mate-1 and a mate-2
fallback token. -/
def exBothTok : FPath := "a_R1_x_R2.fastq.gz".toList

/-- Concrete input: a directory entry with no qualifying extension. -/
def exTxt : FPath := "notes.txt".toList

/-- Concrete input: a subdirectory entry with no qualifying extension. -/
def exSubTxt : FPath := "run/readme.md".toList

/-- The input list showing slot overwriting: two distinct files claimed
for the slot of sample `x`, mate 1, plus a mate-2 file. -/
def exList3 : List FPath := [ exXR1, exXR1extra, exXR2 ]

/-- The input list showing order dependence: both `exX1fastq` and
`exX1fq` are claimed by pattern 3 for the slot of sample `x`, mate 1. -/
def exListOrd : List FPath := [ exX1fastq, exX1fq, exX2 ]

/-- A well-behaved pair of mates for sample `x`. -/
def exPair : List FPath := [ exXR1, exXR2 ]

/-- A mid-resolution state in which sample `x` already holds `exXR1` in
its mate-1 slot (as the structured pass of pattern 2 leaves it). -/
def exStatePre : ResolveState :=
  { samples := [ (("x".toList : List Char), { r1 := some exXR1, r2 := none }) ]
    matched := [ exXR1 ]
    log := [ (("x".toList : List Char), Mate.R1, exXR1) ] }

/-- Writing a slot then reading it gives the written file. -/
theorem slotGet_slotSet_self (r : SampleReads) (m : Mate) (f : FPath) :
    slotGet (slotSet r m f) m = some f := by
  cases m <;> rfl

/-- Writing one slot leaves the other slot unchanged. -/
theorem slotGet_slotSet_ne (r : SampleReads) (m m' : Mate) (f : FPath) (h : m' ≠ m) :
    slotGet (slotSet r m f) m' = slotGet r m' := by
  cases m <;> cases m' <;> first | rfl | exact absurd rfl h

@[simp] theorem dictLookup_nil (n : List Char) : dictLookup [] n = none := rfl

@[simp] theorem dictLookup_cons (k : List Char) (v : SampleReads) (rest : Samples) (n : List Char) :
    dictLookup ((k, v) :: rest) n = if k = n then some v else dictLookup rest n := rfl

@[simp] theorem setSlot_nil (n : List Char) (m : Mate) (f : FPath) :
    setSlot [] n m f = [ (n, slotSet emptyReads m f) ] := rfl

@[simp] theorem setSlot_cons (k : List Char) (v : SampleReads) (rest : Samples) (n : List Char) (m : Mate) (f : FPath) :
    setSlot ((k, v) :: rest) n m f = if k = n then (n, slotSet v m f) :: rest else (k, v) :: setSlot rest n m f := rfl

theorem dictLookup_setSlot_self (s : Samples) (n : List Char) (m : Mate) (f : FPath) :
    dictLookup (setSlot s n m f) n = some (slotSet ((dictLookup s n).getD emptyReads) m f) := by
  induction s with
  | nil => simp
  | cons e rest ih =>
    obtain ⟨k, v⟩ := e
    by_cases h : k = n
    · subst h
      simp
    · simp [h, ih]

theorem dictLookup_setSlot_ne (s : Samples) (n n' : List Char) (m : Mate) (f : FPath) (h : n' ≠ n) :
    dictLookup (setSlot s n m f) n' = dictLookup s n' := by
  have hns : ¬ n = n' := fun hh => h hh.symm
  induction s with
  | nil => simp [hns]
  | cons e rest ih =>
    obtain ⟨k, v⟩ := e
    by_cases he : k = n
    · subst he
      simp [hns]
    · simp [he, ih]

theorem slotVal_setSlot_self (s : Samples) (n : List Char) (m : Mate) (f : FPath) :
    slotVal (setSlot s n m f) n m = some f := by
  unfold slotVal
  rw [dictLookup_setSlot_self]
  exact slotGet_slotSet_self _ _ _

theorem slotVal_setSlot_ne (s : Samples) (n n' : List Char) (m m' : Mate) (f : FPath)
    (h : ¬ (n' = n ∧ m' = m)) :
    slotVal (setSlot s n m f) n' m' = slotVal s n' m' := by
  by_cases hn : n' = n
  · subst hn
    have hm : m' ≠ m := fun hm => h ⟨rfl, hm⟩
    unfold slotVal
    rw [dictLookup_setSlot_self]
    show slotGet (slotSet ((dictLookup s n').getD emptyReads) m f) m' = _
    rw [slotGet_slotSet_ne _ _ _ _ hm]
    cases hl : dictLookup s n'
    · cases m' <;> rfl
    · rfl
  · unfold slotVal
    rw [dictLookup_setSlot_ne _ _ _ _ _ hn]

theorem isSome_dictLookup_setSlot (s : Samples) (n n' : List Char) (m : Mate) (f : FPath) :
    (dictLookup (setSlot s n m f) n').isSome = true ↔ n' = n ∨ (dictLookup s n').isSome = true := by
  by_cases hn : n' = n
  · subst hn
    rw [dictLookup_setSlot_self]
    simp
  · rw [dictLookup_setSlot_ne _ _ _ _ _ hn]
    simp [hn]

theorem dictLookup_mem (s : Samples) (n : List Char) (r : SampleReads)
    (h : dictLookup s n = some r) : (n, r) ∈ s := by
  induction s with
  | nil => simp at h
  | cons e rest ih =>
    obtain ⟨k, v⟩ := e
    by_cases he : k = n
    · subst he
      simp at h
      subst h
      exact List.mem_cons_self _ _
    · simp [he] at h
      exact List.mem_cons_of_mem _ (ih h)

theorem mem_keys_setSlot (s : Samples) (n x : List Char) (m : Mate) (f : FPath) :
    x ∈ (setSlot s n m f).map Prod.fst ↔ x ∈ s.map Prod.fst ∨ x = n := by
  induction s with
  | nil => simp
  | cons e rest ih =>
    obtain ⟨k, v⟩ := e
    by_cases he : k = n
    · subst he
      rw [setSlot_cons, if_pos rfl]
      simp only [List.map_cons, List.mem_cons]
      constructor
      · exact Or.inl
      · rintro (hm | rfl)
        · exact hm
        · exact Or.inl rfl
    · rw [setSlot_cons, if_neg he]
      simp only [List.map_cons, List.mem_cons, ih, or_assoc]

theorem nodupKeys_setSlot (s : Samples) (n : List Char) (m : Mate) (f : FPath)
    (h : (s.map Prod.fst).Nodup) : ((setSlot s n m f).map Prod.fst).Nodup := by
  induction s with
  | nil => simp
  | cons e rest ih =>
    obtain ⟨k, v⟩ := e
    simp only [List.map_cons, List.nodup_cons] at h
    by_cases he : k = n
    · subst he
      rw [setSlot_cons, if_pos rfl]
      simp only [List.map_cons, List.nodup_cons]
      exact ⟨h.1, h.2⟩
    · rw [setSlot_cons, if_neg he]
      simp only [List.map_cons, List.nodup_cons]
      refine ⟨?_, ih h.2⟩
      intro hx
      rcases (mem_keys_setSlot rest n k m f).mp hx with hk | hk
      · exact h.1 hk
      · exact he hk

theorem slotVal_of_dictLookup (s : Samples) (n : List Char) (r : SampleReads) (m : Mate)
    (h : dictLookup s n = some r) : slotVal s n m = slotGet r m := by
  unfold slotVal
  rw [h]

/-- A file already in `matched_files` is skipped (lines 68-69, 86-87). -/
theorem resolveStep_of_mem (cl : FPath → Option (List Char × Mate)) (st : ResolveState) (f : FPath)
    (h : f ∈ st.matched) : resolveStep cl st f = st := by
  unfold resolveStep
  rw [if_pos h]

/-- A file the classifier rejects leaves the state unchanged. -/
theorem resolveStep_of_none (cl : FPath → Option (List Char × Mate)) (st : ResolveState) (f : FPath)
    (h : cl f = none) : resolveStep cl st f = st := by
  unfold resolveStep
  rw [h]
  split <;> rfl

/-- A successful classification of an unmatched file stores the file in
the extracted slot, marks it matched, and logs the assignment. -/
theorem resolveStep_of_claim (cl : FPath → Option (List Char × Mate)) (st : ResolveState)
    (f : FPath) (n : List Char) (m : Mate)
    (h1 : f ∉ st.matched) (h2 : cl f = some (n, m)) :
    resolveStep cl st f =
      { samples := setSlot st.samples n m f
        matched := st.matched ++ [ f ]
        log := st.log ++ [ (n, m, f) ] } := by
  unfold resolveStep
  rw [if_neg h1, h2]

/-- A state property preserved by every step is preserved by a fold. -/
theorem foldl_preserve {α σ : Type _} (P : σ → Prop) (step : σ → α → σ)
    (h : ∀ st a, P st → P (step st a)) :
    ∀ (l : List α) (st : σ), P st → P (l.foldl step st) := by
  intro l
  induction l with
  | nil => intro st hst; exact hst
  | cons a t ih =>
    intro st hst
    rw [List.foldl_cons]
    exact ih _ (h st a hst)

/-- Membership in `matched_files` after one step: the old members, plus
the processed file when the classifier accepts it. -/
theorem mem_matched_resolveStep (cl : FPath → Option (List Char × Mate)) (st : ResolveState)
    (f p : FPath) :
    p ∈ (resolveStep cl st f).matched ↔ p ∈ st.matched ∨ (p = f ∧ (cl f).isSome = true) := by
  by_cases hm : f ∈ st.matched
  · rw [resolveStep_of_mem _ _ _ hm]
    constructor
    · exact Or.inl
    · rintro (h | ⟨rfl, _⟩)
      · exact h
      · exact hm
  · cases hcl : cl f with
    | none =>
      rw [resolveStep_of_none _ _ _ hcl]
      simp
    | some v =>
      obtain ⟨n, m⟩ := v
      rw [resolveStep_of_claim _ _ _ _ _ hm hcl]
      simp [List.mem_append]

/-- Membership in `matched_files` after one full pass: the old members,
plus every file of the list the classifier accepts. -/
theorem mem_matched_fold (cl : FPath → Option (List Char × Mate)) (files : List FPath)
    (st : ResolveState) (p : FPath) :
    p ∈ (files.foldl (resolveStep cl) st).matched
      ↔ p ∈ st.matched ∨ (p ∈ files ∧ (cl p).isSome = true) := by
  induction files generalizing st with
  | nil => simp
  | cons f t ih =>
    rw [List.foldl_cons, ih, mem_matched_resolveStep]
    constructor
    · rintro ((h | ⟨rfl, hs⟩) | ⟨ht, hs⟩)
      · exact Or.inl h
      · exact Or.inr ⟨List.mem_cons_self _ _, hs⟩
      · exact Or.inr ⟨List.mem_cons_of_mem _ ht, hs⟩
    · rintro (h | ⟨hm, hs⟩)
      · exact Or.inl (Or.inl h)
      · rcases List.mem_cons.mp hm with rfl | ht
        · exact Or.inl (Or.inr ⟨rfl, hs⟩)
        · exact Or.inr ⟨ht, hs⟩

/-- Two pointwise-equal predicates find the same first element. -/
theorem find?_congr_pred {α : Type _} (p q : α → Bool) (l : List α)
    (h : ∀ x ∈ l, p x = q x) : l.find? p = l.find? q := by
  induction l with
  | nil => rfl
  | cons a t ih =>
    rw [List.find?_cons, List.find?_cons, h a (List.mem_cons_self _ _),
      ih (fun x hx => h x (List.mem_cons_of_mem _ hx))]

/-- Value of one sample/mate slot after one full pass, when at most one
unmatched file of the list is claimed for that slot: the claimant if
there is one, else the incoming value. -/
theorem slotVal_fold (cl : FPath → Option (List Char × Mate)) (files : List FPath)
    (st : ResolveState) (n : List Char) (m : Mate)
    (hu : ∀ f ∈ files, ∀ g ∈ files, f ∉ st.matched → g ∉ st.matched →
      cl f = some (n, m) → cl g = some (n, m) → f = g) :
    slotVal (files.foldl (resolveStep cl) st).samples n m =
      match files.find? (fun g => ((! decide (g ∈ st.matched)) && decide (cl g = some (n, m)))) with
      | some f => some f
      | none => slotVal st.samples n m := by
  induction files generalizing st with
  | nil => rfl
  | cons f t ih =>
    have htail : ∀ (st' : ResolveState), st.matched ⊆ st'.matched →
        (∀ a ∈ t, ∀ b ∈ t, a ∉ st'.matched → b ∉ st'.matched →
          cl a = some (n, m) → cl b = some (n, m) → a = b) := by
      intro st' hsub a ha b hb ha2 hb2 hca hcb
      exact hu a (List.mem_cons_of_mem _ ha) b (List.mem_cons_of_mem _ hb)
        (fun hx => ha2 (hsub hx)) (fun hx => hb2 (hsub hx)) hca hcb
    rw [List.foldl_cons]
    by_cases hm : f ∈ st.matched
    · have hpf : ¬ (((! decide (f ∈ st.matched)) && decide (cl f = some (n, m))) = true) := by
        simp [hm]
      have hstep : List.find? (fun g => ((! decide (g ∈ st.matched)) && decide (cl g = some (n, m)))) (f :: t)
          = List.find? (fun g => ((! decide (g ∈ st.matched)) && decide (cl g = some (n, m)))) t :=
        List.find?_cons_of_neg t hpf
      rw [resolveStep_of_mem _ _ _ hm, hstep]
      exact ih st (htail st (fun _ h => h))
    · cases hcl : cl f with
      | none =>
        have hpf : ¬ (((! decide (f ∈ st.matched)) && decide (cl f = some (n, m))) = true) := by
          simp [hcl]
        have hstep : List.find? (fun g => ((! decide (g ∈ st.matched)) && decide (cl g = some (n, m)))) (f :: t)
            = List.find? (fun g => ((! decide (g ∈ st.matched)) && decide (cl g = some (n, m)))) t :=
          List.find?_cons_of_neg t hpf
        rw [resolveStep_of_none _ _ _ hcl, hstep]
        exact ih st (htail st (fun _ h => h))
      | some v =>
        obtain ⟨n', m'⟩ := v
        have hsamp : (resolveStep cl st f).samples = setSlot st.samples n' m' f := by
          rw [resolveStep_of_claim _ _ _ _ _ hm hcl]
        have hmat : (resolveStep cl st f).matched = st.matched ++ [ f ] := by
          rw [resolveStep_of_claim _ _ _ _ _ hm hcl]
        have hsub : st.matched ⊆ (resolveStep cl st f).matched := by
          rw [hmat]
          intro x hx
          exact List.mem_append.mpr (Or.inl hx)
        rw [ih (resolveStep cl st f) (htail _ hsub), hmat, hsamp]
        by_cases hne : (n', m') = (n, m)
        · have h1 : n' = n := congrArg Prod.fst hne
          have h2 : m' = m := congrArg Prod.snd hne
          subst h1
          subst h2
          have hpf : (((! decide (f ∈ st.matched)) && decide (cl f = some (n', m'))) = true) := by
            simp [hm, hcl]
          have hstep : List.find? (fun g => ((! decide (g ∈ st.matched)) && decide (cl g = some (n', m')))) (f :: t)
              = some f :=
            List.find?_cons_of_pos t hpf
          rw [hstep]
          have hnone : t.find? (fun g =>
              ((! decide (g ∈ st.matched ++ [ f ])) && decide (cl g = some (n', m')))) = none := by
            rw [List.find?_eq_none]
            intro g hg hpg
            simp only [Bool.and_eq_true, Bool.not_eq_true', decide_eq_false_iff_not,
              decide_eq_true_eq] at hpg
            have hgm : g ∉ st.matched := fun hx => hpg.1 (List.mem_append.mpr (Or.inl hx))
            have hgf : g ≠ f := fun hgf => hpg.1 (List.mem_append.mpr (Or.inr (by simp [hgf])))
            exact hgf (hu g (List.mem_cons_of_mem _ hg) f (List.mem_cons_self _ _)
              hgm hm hpg.2 hcl)
          rw [hnone]
          exact slotVal_setSlot_self _ _ _ _
        · have hpf : ¬ (((! decide (f ∈ st.matched)) && decide (cl f = some (n, m))) = true) := by
            simp only [Bool.and_eq_true, Bool.not_eq_true', decide_eq_false_iff_not,
              decide_eq_true_eq]
            rintro ⟨-, hc⟩
            rw [hcl] at hc
            exact hne (Option.some.injEq .. ▸ hc)
          have hstep : List.find? (fun g => ((! decide (g ∈ st.matched)) && decide (cl g = some (n, m)))) (f :: t)
              = List.find? (fun g => ((! decide (g ∈ st.matched)) && decide (cl g = some (n, m)))) t :=
            List.find?_cons_of_neg t hpf
          rw [hstep]
          have hcongr : t.find? (fun g =>
              ((! decide (g ∈ st.matched ++ [ f ])) && decide (cl g = some (n, m))))
              = t.find? (fun g => ((! decide (g ∈ st.matched)) && decide (cl g = some (n, m)))) := by
            apply find?_congr_pred
            intro g _
            by_cases hgf : g = f
            · subst hgf
              have hc : ¬ (cl g = some (n, m)) := by
                rw [hcl]
                intro hc
                exact hne (Option.some.injEq .. ▸ hc)
              simp [hc]
            · have hiff : (g ∈ st.matched ++ [ f ]) ↔ (g ∈ st.matched) := by
                rw [List.mem_append, List.mem_singleton]
                exact or_iff_left hgf
              rw [decide_eq_decide.mpr hiff]
          rw [hcongr]
          have hsv : slotVal (setSlot st.samples n' m' f) n m = slotVal st.samples n m := by
            apply slotVal_setSlot_ne
            rintro ⟨rfl, rfl⟩
            exact hne rfl
          cases t.find? (fun g => ((! decide (g ∈ st.matched)) && decide (cl g = some (n, m))))
          · exact hsv
          · rfl

/-- Existence of a sample key after one full pass: the keys already
present, plus the names extracted from unmatched files the classifier
accepts. -/
theorem isSome_fold (cl : FPath → Option (List Char × Mate)) (files : List FPath)
    (st : ResolveState) (n : List Char) :
    (dictLookup (files.foldl (resolveStep cl) st).samples n).isSome = true
      ↔ (dictLookup st.samples n).isSome = true
        ∨ ∃ f ∈ files, f ∉ st.matched ∧ ∃ m, cl f = some (n, m) := by
  induction files generalizing st with
  | nil => simp
  | cons f t ih =>
    rw [List.foldl_cons]
    by_cases hm : f ∈ st.matched
    · rw [resolveStep_of_mem _ _ _ hm, ih st]
      constructor
      · rintro (hk | ⟨g, hg, hgm, hex⟩)
        · exact Or.inl hk
        · exact Or.inr ⟨g, List.mem_cons_of_mem _ hg, hgm, hex⟩
      · rintro (hk | ⟨g, hg, hgm, hex⟩)
        · exact Or.inl hk
        · rcases List.mem_cons.mp hg with rfl | hgt
          · exact absurd hm hgm
          · exact Or.inr ⟨g, hgt, hgm, hex⟩
    · cases hcl : cl f with
      | none =>
        rw [resolveStep_of_none _ _ _ hcl, ih st]
        constructor
        · rintro (hk | ⟨g, hg, hgm, hex⟩)
          · exact Or.inl hk
          · exact Or.inr ⟨g, List.mem_cons_of_mem _ hg, hgm, hex⟩
        · rintro (hk | ⟨g, hg, hgm, hex⟩)
          · exact Or.inl hk
          · rcases List.mem_cons.mp hg with rfl | hgt
            · obtain ⟨m, hme⟩ := hex
              rw [hcl] at hme
              exact absurd hme (by simp)
            · exact Or.inr ⟨g, hgt, hgm, hex⟩
      | some v =>
        obtain ⟨n', m'⟩ := v
        have hsamp : (resolveStep cl st f).samples = setSlot st.samples n' m' f := by
          rw [resolveStep_of_claim _ _ _ _ _ hm hcl]
        have hmat : (resolveStep cl st f).matched = st.matched ++ [ f ] := by
          rw [resolveStep_of_claim _ _ _ _ _ hm hcl]
        rw [ih (resolveStep cl st f), hsamp, hmat, isSome_dictLookup_setSlot]
        constructor
        · rintro ((rfl | hk) | ⟨g, hg, hgm, hex⟩)
          · exact Or.inr ⟨f, List.mem_cons_self _ _, hm, m', hcl⟩
          · exact Or.inl hk
          · refine Or.inr ⟨g, List.mem_cons_of_mem _ hg, fun hx => ?_, hex⟩
            exact hgm (List.mem_append.mpr (Or.inl hx))
        · rintro (hk | ⟨g, hg, hgm, m'', hme⟩)
          · exact Or.inl (Or.inr hk)
          · rcases List.mem_cons.mp hg with rfl | hgt
            · rw [hcl] at hme
              have : n' = n := congrArg Prod.fst (Option.some.injEq .. ▸ hme :)
              exact Or.inl (Or.inl this.symm)
            · by_cases hgf : g = f
              · subst hgf
                rw [hcl] at hme
                have : n' = n := congrArg Prod.fst (Option.some.injEq .. ▸ hme :)
                exact Or.inl (Or.inl this.symm)
              · refine Or.inr ⟨g, hgt, fun hx => ?_, m'', hme⟩
                rcases List.mem_append.mp hx with hx1 | hx2
                · exact hgm hx1
                · exact hgf (List.mem_singleton.mp hx2)

@[simp] theorem globalClassify_nil (f : FPath) : globalClassify [] f = none := rfl

theorem globalClassify_cons (cl : FPath → Option (List Char × Mate))
    (rest : List (FPath → Option (List Char × Mate))) (f : FPath) :
    globalClassify (cl :: rest) f =
      match cl f with
      | some r => some r
      | none => globalClassify rest f := rfl

theorem globalClassify_append (cls₁ cls₂ : List (FPath → Option (List Char × Mate))) (f : FPath) :
    globalClassify (cls₁ ++ cls₂) f =
      match globalClassify cls₁ f with
      | some v => some v
      | none => globalClassify cls₂ f := by
  induction cls₁ with
  | nil => rfl
  | cons cl rest ih =>
    rw [List.cons_append, globalClassify_cons, globalClassify_cons cl rest f]
    cases cl f
    · exact ih
    · rfl

theorem globalClassify_append_some (cls₁ cls₂ : List (FPath → Option (List Char × Mate)))
    (f : FPath) (v : List Char × Mate) (h : globalClassify cls₁ f = some v) :
    globalClassify (cls₁ ++ cls₂) f = some v := by
  rw [globalClassify_append, h]

theorem globalClassify_append_none (cls₁ cls₂ : List (FPath → Option (List Char × Mate)))
    (f : FPath) (h : globalClassify cls₁ f = none) :
    globalClassify (cls₁ ++ cls₂) f = globalClassify cls₂ f := by
  rw [globalClassify_append, h]

theorem globalClassify_singleton (cl : FPath → Option (List Char × Mate)) (f : FPath) :
    globalClassify [ cl ] f = cl f := by
  rw [globalClassify_cons]
  cases cl f <;> rfl

theorem claimUniq_prefix (cls₁ cls₂ : List (FPath → Option (List Char × Mate)))
    (files : List FPath) (h : ClaimUniq (cls₁ ++ cls₂) files) : ClaimUniq cls₁ files := by
  intro f hf g hg n m hcf hcg
  exact h f hf g hg n m (globalClassify_append_some cls₁ cls₂ f _ hcf)
    (globalClassify_append_some cls₁ cls₂ g _ hcg)

theorem isSome_globalClassify_append (cls₁ cls₂ : List (FPath → Option (List Char × Mate))) (f : FPath) :
    (globalClassify (cls₁ ++ cls₂) f).isSome = true
      ↔ (globalClassify cls₁ f).isSome = true ∨ (globalClassify cls₂ f).isSome = true := by
  rw [globalClassify_append]
  cases globalClassify cls₁ f <;> simp

/-- One more pass preserves the state characterization, provided at most
one file is claimed per slot by the classifiers seen so far. -/
theorem fold_preserves_inv (files : List FPath) (cls₁ : List (FPath → Option (List Char × Mate)))
    (cl : FPath → Option (List Char × Mate)) (st : ResolveState)
    (hu : ClaimUniq (cls₁ ++ [ cl ]) files) (hinv : ResolverInv files cls₁ st) :
    ResolverInv files (cls₁ ++ [ cl ]) (files.foldl (resolveStep cl) st) := by
  unfold ResolverInv at hinv ⊢
  obtain ⟨hM, hS, hK⟩ := hinv
  have hgc_ext : ∀ f, globalClassify cls₁ f = none → globalClassify (cls₁ ++ [ cl ]) f = cl f := by
    intro f h
    rw [globalClassify_append_none _ _ _ h, globalClassify_singleton]
  have hunm : ∀ f ∈ files, (f ∉ st.matched ↔ globalClassify cls₁ f = none) := by
    intro f hf
    constructor
    · intro hnm
      cases hcase : globalClassify cls₁ f with
      | none => rfl
      | some v =>
        exact absurd ((hM f).mpr ⟨hf, by rw [hcase]; rfl⟩) hnm
    · intro hnone hmem
      have := ((hM f).mp hmem).2
      rw [hnone] at this
      exact Bool.false_ne_true this
  refine ⟨?_, ?_, ?_⟩
  · intro p
    rw [mem_matched_fold]
    constructor
    · rintro (hp | ⟨hmem, hsome⟩)
      · obtain ⟨hmem, hsome⟩ := (hM p).mp hp
        exact ⟨hmem, (isSome_globalClassify_append cls₁ [ cl ] p).mpr (Or.inl hsome)⟩
      · refine ⟨hmem, (isSome_globalClassify_append cls₁ [ cl ] p).mpr (Or.inr ?_)⟩
        rw [globalClassify_singleton]
        exact hsome
    · rintro ⟨hmem, hsome⟩
      rcases (isSome_globalClassify_append cls₁ [ cl ] p).mp hsome with h1 | h2
      · exact Or.inl ((hM p).mpr ⟨hmem, h1⟩)
      · rw [globalClassify_singleton] at h2
        exact Or.inr ⟨hmem, h2⟩
  · intro n m f
    have huf : ∀ a ∈ files, ∀ b ∈ files, a ∉ st.matched → b ∉ st.matched →
        cl a = some (n, m) → cl b = some (n, m) → a = b := by
      intro a ha b hb ham hbm hca hcb
      have h1 : globalClassify (cls₁ ++ [ cl ]) a = some (n, m) := by
        rw [hgc_ext a ((hunm a ha).mp ham)]
        exact hca
      have h2 : globalClassify (cls₁ ++ [ cl ]) b = some (n, m) := by
        rw [hgc_ext b ((hunm b hb).mp hbm)]
        exact hcb
      exact hu a ha b hb n m h1 h2
    rw [slotVal_fold cl files st n m huf]
    cases hfind : files.find? (fun g => ((! decide (g ∈ st.matched)) && decide (cl g = some (n, m)))) with
    | some g =>
      have hpg := List.find?_some hfind
      have hgmem := List.mem_of_find?_eq_some hfind
      simp only [Bool.and_eq_true, Bool.not_eq_true', decide_eq_false_iff_not,
        decide_eq_true_eq] at hpg
      obtain ⟨hgnm, hgcl⟩ := hpg
      have hggc : globalClassify (cls₁ ++ [ cl ]) g = some (n, m) := by
        rw [hgc_ext g ((hunm g hgmem).mp hgnm)]
        exact hgcl
      show some g = some f ↔ _
      constructor
      · intro h
        have hgf : g = f := Option.some.inj h
        subst hgf
        exact ⟨hgmem, hggc⟩
      · rintro ⟨hfmem, hfgc⟩
        rw [hu f hfmem g hgmem n m hfgc hggc]
    | none =>
      show slotVal st.samples n m = some f ↔ _
      rw [hS n m f]
      constructor
      · rintro ⟨hfmem, hfg⟩
        exact ⟨hfmem, globalClassify_append_some _ _ _ _ hfg⟩
      · rintro ⟨hfmem, hfg⟩
        refine ⟨hfmem, ?_⟩
        cases hg1 : globalClassify cls₁ f with
        | some v =>
          rw [globalClassify_append_some _ [ cl ] _ _ hg1] at hfg
          exact hfg
        | none =>
          exfalso
          have hcf : cl f = some (n, m) := by
            rw [← hgc_ext f hg1]
            exact hfg
          have hfnm : f ∉ st.matched := (hunm f hfmem).mpr hg1
          apply List.find?_eq_none.mp hfind f hfmem
          simp [hfnm, hcf]
  · intro n
    rw [isSome_fold]
    constructor
    · rintro (hk | ⟨f, hfmem, hfnm, m, hcf⟩)
      · obtain ⟨f, hfmem, m, hg⟩ := (hK n).mp hk
        exact ⟨f, hfmem, m, globalClassify_append_some _ _ _ _ hg⟩
      · have hg1 : globalClassify cls₁ f = none := (hunm f hfmem).mp hfnm
        exact ⟨f, hfmem, m, by rw [hgc_ext f hg1]; exact hcf⟩
    · rintro ⟨f, hfmem, m, hg⟩
      cases hg1 : globalClassify cls₁ f with
      | some v =>
        have hv : some v = some (n, m) :=
          (globalClassify_append_some cls₁ [ cl ] f v hg1).symm.trans hg
        left
        exact (hK n).mpr ⟨f, hfmem, m, by rw [hg1, Option.some.inj hv]⟩
      | none =>
        right
        have hfnm : f ∉ st.matched := (hunm f hfmem).mpr hg1
        have hcf : cl f = some (n, m) := by
          rw [← hgc_ext f hg1]
          exact hg
        exact ⟨f, hfmem, hfnm, m, hcf⟩

/-- Before any pass has run, the characterization holds trivially. -/
theorem resolverInv_nil (files : List FPath) : ResolverInv files [] initState := by
  unfold ResolverInv initState
  refine ⟨?_, ?_, ?_⟩
  · intro p
    simp [slotVal]
  · intro n m f
    simp [slotVal]
  · intro n
    simp

/-- Running a sequence of passes preserves the characterization. -/
theorem runPasses_inv (files : List FPath) (cls₂ : List (FPath → Option (List Char × Mate))) :
    ∀ (cls₁ : List (FPath → Option (List Char × Mate))) (st : ResolveState),
      ClaimUniq (cls₁ ++ cls₂) files → ResolverInv files cls₁ st →
      ResolverInv files (cls₁ ++ cls₂) (runPasses cls₂ files st) := by
  induction cls₂ with
  | nil =>
    intro cls₁ st _ hinv
    rw [List.append_nil]
    exact hinv
  | cons cl rest ih =>
    intro cls₁ st hu hinv
    have hassoc : cls₁ ++ cl :: rest = (cls₁ ++ [ cl ]) ++ rest := by
      rw [List.append_assoc, List.singleton_append]
    rw [hassoc] at hu ⊢
    have h2 : ClaimUniq (cls₁ ++ [ cl ]) files := claimUniq_prefix _ rest files hu
    have h3 : ResolverInv files (cls₁ ++ [ cl ]) (files.foldl (resolveStep cl) st) :=
      fold_preserves_inv files cls₁ cl st h2 hinv
    have hrun : runPasses (cl :: rest) files st
        = runPasses rest files (files.foldl (resolveStep cl) st) := rfl
    rw [hrun]
    exact ih (cls₁ ++ [ cl ]) _ hu h3

/-- The two passes of `find_fastq_pairs` are the composite run over
`allPasses`. -/
theorem resolveState_eq_runPasses (files : List FPath) :
    resolveState files = runPasses allPasses files initState := by
  unfold resolveState runPasses allPasses
  rw [List.foldl_append, List.foldl_map]
  rfl

/-- The characterization of the final pre-validation state, under
claim-uniqueness. -/
theorem resolveState_inv (files : List FPath) (hu : ClaimUniq allPasses files) :
    ResolverInv files allPasses (resolveState files) := by
  rw [resolveState_eq_runPasses]
  have h0 : ClaimUniq ([] ++ allPasses) files := by
    rw [List.nil_append]
    exact hu
  have := runPasses_inv files allPasses [] initState h0 (resolverInv_nil files)
  rw [List.nil_append] at this
  exact this

/-- The decidable order-independence premise implies claim-uniqueness. -/
theorem claimUniq_of_uniqueClaims (files : List FPath) (h : UniqueClaims files) :
    ClaimUniq allPasses files := by
  intro f hf g hg n m hcf hcg
  by_cases hfg : f = g
  · exact hfg
  · rcases h f hf g hg hfg with hn | hne
    · unfold fileClaim at hn
      rw [hn] at hcf
      exact absurd hcf (by simp)
    · exfalso
      apply hne
      unfold fileClaim
      rw [hcf, hcg]

/-- The order-independence premise transfers along permutations. -/
theorem uniqueClaims_perm (files₁ files₂ : List FPath) (hp : files₁.Perm files₂)
    (h : UniqueClaims files₁) : UniqueClaims files₂ := by
  intro f hf g hg
  exact h f (hp.mem_iff.mpr hf) g (hp.mem_iff.mpr hg)

/-- Claim-uniqueness transfers along permutations. -/
theorem claimUniq_perm (cls : List (FPath → Option (List Char × Mate)))
    (files₁ files₂ : List FPath) (hp : files₁.Perm files₂)
    (h : ClaimUniq cls files₁) : ClaimUniq cls files₂ := by
  intro f hf g hg
  exact h f (hp.mem_iff.mpr hf) g (hp.mem_iff.mpr hg)

/-- An absent key stays absent after filtering. -/
theorem dictLookup_filter_none (s : Samples) (p : List Char × SampleReads → Bool) (n : List Char)
    (h : dictLookup s n = none) : dictLookup (s.filter p) n = none := by
  induction s with
  | nil => rfl
  | cons e rest ih =>
    obtain ⟨k, v⟩ := e
    by_cases hk : k = n
    · rw [dictLookup_cons, if_pos hk] at h
      exact absurd h (by simp)
    · rw [dictLookup_cons, if_neg hk] at h
      cases hp : p (k, v)
      · rw [List.filter_cons_of_neg (by simp [hp])]
        exact ih h
      · rw [List.filter_cons_of_pos hp, dictLookup_cons, if_neg hk]
        exact ih h

/-- A key absent from the key list is absent from the dict. -/
theorem dictLookup_eq_none_of_not_mem_keys (s : Samples) (n : List Char)
    (h : n ∉ s.map Prod.fst) : dictLookup s n = none := by
  induction s with
  | nil => rfl
  | cons e rest ih =>
    obtain ⟨k, v⟩ := e
    simp only [List.map_cons, List.mem_cons] at h
    rw [dictLookup_cons, if_neg (fun hk => h (Or.inl hk.symm))]
    exact ih (fun hx => h (Or.inr hx))

/-- The first entry of a key survives filtering when the predicate
accepts it. -/
theorem dictLookup_filter_of_pred (s : Samples) (p : List Char × SampleReads → Bool)
    (n : List Char) (r : SampleReads)
    (h : dictLookup s n = some r) (hp : p (n, r) = true) :
    dictLookup (s.filter p) n = some r := by
  induction s with
  | nil => exact absurd h (by simp)
  | cons e rest ih =>
    obtain ⟨k, v⟩ := e
    by_cases hk : k = n
    · subst hk
      rw [dictLookup_cons, if_pos rfl] at h
      have hv : v = r := Option.some.inj h
      subst hv
      rw [List.filter_cons_of_pos hp, dictLookup_cons, if_pos rfl]
    · rw [dictLookup_cons, if_neg hk] at h
      cases hpe : p (k, v)
      · rw [List.filter_cons_of_neg (by simp [hpe])]
        exact ih h
      · rw [List.filter_cons_of_pos hpe, dictLookup_cons, if_neg hk]
        exact ih h

/-- With distinct keys, the entry of a key the predicate rejects is
gone after filtering. -/
theorem dictLookup_filter_of_not_pred (s : Samples) (p : List Char × SampleReads → Bool)
    (n : List Char) (r : SampleReads) (hnd : (s.map Prod.fst).Nodup)
    (h : dictLookup s n = some r) (hp : p (n, r) = false) :
    dictLookup (s.filter p) n = none := by
  induction s with
  | nil => exact absurd h (by simp)
  | cons e rest ih =>
    obtain ⟨k, v⟩ := e
    simp only [List.map_cons, List.nodup_cons] at hnd
    by_cases hk : k = n
    · subst hk
      rw [dictLookup_cons, if_pos rfl] at h
      have hv : v = r := Option.some.inj h
      subst hv
      rw [List.filter_cons_of_neg (by simp [hp])]
      exact dictLookup_filter_none _ _ _
        (dictLookup_eq_none_of_not_mem_keys _ _ hnd.1)
    · rw [dictLookup_cons, if_neg hk] at h
      cases hpe : p (k, v)
      · rw [List.filter_cons_of_neg (by simp [hpe])]
        exact ih hnd.2 h
      · rw [List.filter_cons_of_pos hpe, dictLookup_cons, if_neg hk]
        exact ih hnd.2 h

/-- Every reachable samples dict has distinct keys. -/
theorem nodupKeys_resolveState (files : List FPath) :
    ((resolveState files).samples.map Prod.fst).Nodup := by
  have hstep : ∀ (cl : FPath → Option (List Char × Mate)) (st : ResolveState) (f : FPath),
      (st.samples.map Prod.fst).Nodup → ((resolveStep cl st f).samples.map Prod.fst).Nodup := by
    intro cl st f h
    by_cases hm : f ∈ st.matched
    · rw [resolveStep_of_mem _ _ _ hm]
      exact h
    · cases hcl : cl f with
      | none =>
        rw [resolveStep_of_none _ _ _ hcl]
        exact h
      | some v =>
        obtain ⟨n, m⟩ := v
        rw [resolveStep_of_claim _ _ _ _ _ hm hcl]
        exact nodupKeys_setSlot _ _ _ _ h
  unfold resolveState
  apply foldl_preserve (fun st => (st.samples.map Prod.fst).Nodup)
    (resolveStep fallbackClassify) (hstep _)
  apply foldl_preserve (fun st => (st.samples.map Prod.fst).Nodup)
    (fun st suf => files.foldl (resolveStep (patClassify suf)) st)
  · intro st suf h
    exact foldl_preserve _ _ (hstep _) files st h
  · simp [initState]

/-- A fold whose every step is the identity on the states it sees is the
identity. -/
theorem foldl_id_of {α σ : Type _} (step : σ → α → σ) (l : List α)
    (h : ∀ st a, a ∈ l → step st a = st) : ∀ st, l.foldl step st = st := by
  induction l with
  | nil => intro st; rfl
  | cons a t ih =>
    intro st
    rw [List.foldl_cons, h st a (List.mem_cons_self _ _)]
    exact ih (fun st' b hb => h st' b (List.mem_cons_of_mem _ hb)) st

/-- A file is unclaimed overall exactly when every classifier rejects it. -/
theorem globalClassify_eq_none_iff (cls : List (FPath → Option (List Char × Mate))) (f : FPath) :
    globalClassify cls f = none ↔ ∀ cl ∈ cls, cl f = none := by
  induction cls with
  | nil => simp
  | cons cl rest ih =>
    rw [globalClassify_cons]
    cases hcf : cl f
    · simp only [hcf]
      rw [ih]
      constructor
      · intro hall cl' hcl'
        rcases List.mem_cons.mp hcl' with rfl | hr
        · exact hcf
        · exact hall cl' hr
      · intro hall cl' hcl'
        exact hall cl' (List.mem_cons_of_mem _ hcl')
    · constructor
      · intro hx
        exact absurd hx (by simp)
      · intro hall
        exact absurd (hall cl (List.mem_cons_self _ _)) (by simp [hcf])

/-- A substring test implies the test for any prefix of the substring. -/
theorem infixOfB_of_prefix (s₁ s₂ b : List Char) (hp : s₁ <+: s₂)
    (h : infixOfB s₂ b = true) : infixOfB s₁ b = true := by
  induction b with
  | nil =>
    unfold infixOfB at h ⊢
    rw [List.isEmpty_iff] at h ⊢
    subst h
    exact List.prefix_nil.mp hp
  | cons c rest ih =>
    unfold infixOfB at h ⊢
    rw [Bool.or_eq_true] at h ⊢
    rcases h with h1 | h2
    · exact Or.inl (List.isPrefixOf_iff_prefix.mpr
        (hp.trans (List.isPrefixOf_iff_prefix.mp h1)))
    · exact Or.inr (ih h2)

/-- C1: every Sample Record in the Resolved Sample Set returned by the
resolver has both mate slots set — for every sample name in the mapping
returned by `find_fastq_pairs`, the R1 entry and the R2 entry are both
non-None. -/
theorem C1_completeness_gate (files : List FPath) (n : List Char) (r : SampleReads)
    (h : dictLookup (find_fastq_pairs files).valid n = some r) :
    r.r1.isSome = true ∧ r.r2.isSome = true := by
  have hm : (n, r) ∈ ((resolveState files).samples.filter (fun e => isComplete e.2)) :=
    dictLookup_mem _ _ _ h
  have hp := List.of_mem_filter hm
  have hc : isComplete r = true := hp
  unfold isComplete at hc
  rw [Bool.and_eq_true] at hc
  exact hc

/-- Witness for C1: the pair for sample `x` yields a record with both
slots set. -/
theorem C1_completeness_gate_witness :
    ({ r1 := some exXR1, r2 := some exXR2 } : SampleReads).r1.isSome = true
    ∧ ({ r1 := some exXR1, r2 := some exXR2 } : SampleReads).r2.isSome = true :=
  C1_completeness_gate exPair ("x".toList)
    { r1 := some exXR1, r2 := some exXR2 } (by decide)

/-- C8: on the Illumina-named pair, the resolver produces exactly the
sample `run1` — extracted by the structured Illumina pattern, not by the
fallback heuristic — with the R1 file in mate slot 1 and the R2 file in
mate slot 2. -/
theorem C8_structured_priority :
    (find_fastq_pairs [ exIlluminaR1, exIlluminaR2 ]).valid
      = [ (("run1".toList : List Char), { r1 := some exIlluminaR1, r2 := some exIlluminaR2 }) ]
    ∧ patClassify sufIllumina exIlluminaR1 = some (("run1".toList : List Char), Mate.R1)
    ∧ patClassify sufIllumina exIlluminaR2 = some (("run1".toList : List Char), Mate.R2)
    ∧ fallbackClassify exIlluminaR1 ≠ some (("run1".toList : List Char), Mate.R1) := by
  refine ⟨by decide, by decide, by decide, by decide⟩

/-- C9: when no file in the directory or its immediate subdirectories
has a qualifying extension, the resolver returns an empty Resolved
Sample Set and emits no diagnostics. -/
theorem C9_empty_input (direct sub : List FPath)
    (h : ∀ f ∈ direct ++ sub, isFastqName f = false) :
    find_fastq_pairs (enumerateFastqs direct sub) = { valid := [], warnings := [] } := by
  have hd : ∀ f ∈ direct, isFastqName f = false :=
    fun f hf => h f (List.mem_append.mpr (Or.inl hf))
  have hs : ∀ f ∈ sub, isFastqName f = false :=
    fun f hf => h f (List.mem_append.mpr (Or.inr hf))
  have hone : ∀ (l : List FPath), (∀ f ∈ l, isFastqName f = false) →
      l.filter (fun p => extFastq.isSuffixOf p) = []
      ∧ l.filter (fun p => extFq.isSuffixOf p) = [] := by
    intro l hl
    constructor <;>
      · rw [List.filter_eq_nil_iff]
        intro a ha hsuf
        have := hl a ha
        unfold isFastqName at this
        simp [hsuf] at this
  unfold enumerateFastqs
  rw [(hone direct hd).1, (hone direct hd).2, (hone sub hs).1, (hone sub hs).2]
  decide

/-- Witness for C9: a directory and subdirectory holding only
non-qualifying names. -/
theorem C9_empty_input_witness :
    find_fastq_pairs (enumerateFastqs [ exTxt ] [ exSubTxt ]) = { valid := [], warnings := [] } :=
  C9_empty_input [ exTxt ] [ exSubTxt ] (by decide)

/-- C4: across both passes, each candidate file is recorded into at most
one sample/mate slot: the files appearing in the ghost assignment log are
pairwise distinct — once matched, a file is never matched again. -/
theorem C4_no_double_assignment (files : List FPath) :
    ((resolveState files).log.map (fun e => e.2.2)).Nodup := by
  have hstep : ∀ (cl : FPath → Option (List Char × Mate)) (st : ResolveState) (f : FPath),
      ((st.log.map (fun e => e.2.2)).Nodup ∧ ∀ p ∈ st.log.map (fun e => e.2.2), p ∈ st.matched) →
      (((resolveStep cl st f).log.map (fun e => e.2.2)).Nodup
        ∧ ∀ p ∈ (resolveStep cl st f).log.map (fun e => e.2.2), p ∈ (resolveStep cl st f).matched) := by
    rintro cl st f ⟨h1, h2⟩
    by_cases hm : f ∈ st.matched
    · rw [resolveStep_of_mem _ _ _ hm]
      exact ⟨h1, h2⟩
    · cases hcl : cl f with
      | none =>
        rw [resolveStep_of_none _ _ _ hcl]
        exact ⟨h1, h2⟩
      | some v =>
        obtain ⟨n, m⟩ := v
        rw [resolveStep_of_claim _ _ _ _ _ hm hcl]
        constructor
        · rw [List.map_append, List.nodup_append]
          refine ⟨h1, by simp, ?_⟩
          intro p hp hps
          simp only [List.map_cons, List.map_nil, List.mem_singleton] at hps
          subst hps
          exact hm (h2 p hp)
        · intro p hp
          rw [List.map_append] at hp
          rcases List.mem_append.mp hp with hh | hh
          · exact List.mem_append.mpr (Or.inl (h2 p hh))
          · simp only [List.map_cons, List.map_nil, List.mem_singleton] at hh
            subst hh
            exact List.mem_append.mpr (Or.inr (by simp))
  have hinv : (((resolveState files).log.map (fun e => e.2.2)).Nodup
      ∧ ∀ p ∈ (resolveState files).log.map (fun e => e.2.2), p ∈ (resolveState files).matched) := by
    unfold resolveState
    apply foldl_preserve
      (fun st : ResolveState => ((st.log.map (fun e => e.2.2)).Nodup
        ∧ ∀ p ∈ st.log.map (fun e => e.2.2), p ∈ st.matched))
      (resolveStep fallbackClassify) (hstep _) files
    apply foldl_preserve
      (fun st : ResolveState => ((st.log.map (fun e => e.2.2)).Nodup
        ∧ ∀ p ∈ st.log.map (fun e => e.2.2), p ∈ st.matched))
      (fun st suf => files.foldl (resolveStep (patClassify suf)) st)
    · intro st suf hh
      exact foldl_preserve
        (fun st : ResolveState => ((st.log.map (fun e => e.2.2)).Nodup
          ∧ ∀ p ∈ st.log.map (fun e => e.2.2), p ∈ st.matched))
        _ (hstep _) files st hh
    · exact ⟨by simp [initState], by simp [initState]⟩
  exact hinv.1

/-- C3 counterexample: the claim "the slot's existing file is never
replaced" is false.  Pattern 2 first assigns `exXR1` to the mate-1 slot
of sample `x` (first log entry); pattern 4 later matches `exXR1extra`
to the same sample and mate index, and the final Resolved Sample Set
holds `exXR1extra` — the earlier file was replaced. -/
theorem C3_counterexample :
    (resolveState exList3).log
      = [ (("x".toList : List Char), Mate.R1, exXR1),
          (("x".toList : List Char), Mate.R2, exXR2),
          (("x".toList : List Char), Mate.R1, exXR1extra) ]
    ∧ dictLookup (find_fastq_pairs exList3).valid ("x".toList)
      = some { r1 := some exXR1extra, r2 := some exXR2 }
    ∧ exXR1extra ≠ exXR1 := by
  refine ⟨by decide, by decide, by decide⟩

/-- C3 amended: during the structured-pattern pass (and likewise the
fallback pass), a successful match of an unmatched file always stores
that file in the extracted sample/mate slot, replacing whatever file the
slot already held — last match wins per slot, not first. -/
theorem C3_last_match_wins (cl : FPath → Option (List Char × Mate)) (st : ResolveState)
    (f : FPath) (n : List Char) (m : Mate)
    (h1 : f ∉ st.matched) (h2 : cl f = some (n, m)) :
    slotVal (resolveStep cl st f).samples n m = some f := by
  rw [resolveStep_of_claim _ _ _ _ _ h1 h2]
  exact slotVal_setSlot_self _ _ _ _

/-- Witness for the amended C3: from a state in which the mate-1 slot of
`x` already holds `exXR1`, the pattern-4 match of `exXR1extra`
overwrites the slot. -/
theorem C3_last_match_wins_witness :
    slotVal (resolveStep (patClassify sufRExtra) exStatePre exXR1extra).samples
      ("x".toList) Mate.R1 = some exXR1extra :=
  C3_last_match_wins (patClassify sufRExtra) exStatePre exXR1extra
    ("x".toList) Mate.R1 (by decide) (by decide)

/-- C5 counterexample: the claim "no matched file is dropped from the
result without a corresponding diagnostic" is false.  `exXR1` is matched
into the mate-1 slot of `x` (it is in the assignment log), the final
Resolved Sample Set does not contain it anywhere (the slot was
overwritten), and the warning list is empty. -/
theorem C5_counterexample :
    (("x".toList : List Char), Mate.R1, exXR1) ∈ (resolveState exList3).log
    ∧ (find_fastq_pairs exList3).warnings = []
    ∧ (find_fastq_pairs exList3).valid
      = [ (("x".toList : List Char), { r1 := some exXR1extra, r2 := some exXR2 }) ]
    ∧ (∀ e ∈ (find_fastq_pairs exList3).valid, e.2.r1 ≠ some exXR1 ∧ e.2.r2 ≠ some exXR1) := by
  refine ⟨by decide, by decide, by decide, by decide⟩

/-- C5 amended: every sample name present in the in-progress mapping at
validation time is accounted for — it either appears in the Resolved
Sample Set or receives a warning diagnostic.  (A file displaced from a
slot by a later match is, however, dropped with no diagnostic, as the
counterexample shows.) -/
theorem C5_accounting (files : List FPath) (n : List Char)
    (h : (dictLookup (resolveState files).samples n).isSome = true) :
    (dictLookup (find_fastq_pairs files).valid n).isSome = true
    ∨ warnMsg n ∈ (find_fastq_pairs files).warnings := by
  obtain ⟨r, hr⟩ := Option.isSome_iff_exists.mp h
  by_cases hc : isComplete r = true
  · left
    have : dictLookup ((resolveState files).samples.filter (fun e => isComplete e.2)) n = some r :=
      dictLookup_filter_of_pred _ _ _ _ hr hc
    rw [show (find_fastq_pairs files).valid
        = (resolveState files).samples.filter (fun e => isComplete e.2) from rfl, this]
    rfl
  · right
    have hmem : (n, r) ∈ (resolveState files).samples := dictLookup_mem _ _ _ hr
    have hmf : (n, r) ∈ (resolveState files).samples.filter (fun e => ! isComplete e.2) := by
      rw [List.mem_filter]
      refine ⟨hmem, ?_⟩
      rw [Bool.not_eq_true']
      rw [Bool.not_eq_true] at hc
      exact hc
  
    show warnMsg n ∈ ((resolveState files).samples.filter
      (fun e => ! isComplete e.2)).map (fun e => warnMsg e.1)
    exact List.mem_map.mpr ⟨(n, r), hmf, rfl⟩

/-- Witness for the amended C5: the lone mate-1 file's sample is
accounted for by a warning. -/
theorem C5_accounting_witness :
    (dictLookup (find_fastq_pairs [ exAR1only ]).valid ("sampleA".toList)).isSome = true
    ∨ warnMsg ("sampleA".toList) ∈ (find_fastq_pairs [ exAR1only ]).warnings :=
  C5_accounting [ exAR1only ] ("sampleA".toList) (by decide)

/-- C6 counterexample: the claim that the warning "states … which mate
(mate 1 or mate 2) is missing" is false.  A run in which mate 2 is
missing and a run in which mate 1 is missing produce the identical
diagnostic string, which therefore does not state which mate is
missing. -/
theorem C6_counterexample :
    (find_fastq_pairs [ exAR1only ]).warnings = (find_fastq_pairs [ exAR2only ]).warnings
    ∧ (find_fastq_pairs [ exAR1only ]).warnings = [ warnMsg ("sampleA".toList) ]
    ∧ slotVal (resolveState [ exAR1only ]).samples ("sampleA".toList) Mate.R1 = some exAR1only
    ∧ slotVal (resolveState [ exAR1only ]).samples ("sampleA".toList) Mate.R2 = none
    ∧ slotVal (resolveState [ exAR2only ]).samples ("sampleA".toList) Mate.R1 = none
    ∧ slotVal (resolveState [ exAR2only ]).samples ("sampleA".toList) Mate.R2 = some exAR2only
    ∧ (find_fastq_pairs [ exAR1only ]).valid = []
    ∧ (find_fastq_pairs [ exAR2only ]).valid = [] := by
  refine ⟨by decide, by decide, by decide, by decide, by decide, by decide, by decide, by decide⟩

/-- C6 amended: for every Sample Record with a mate slot missing, the
resolver emits a warning diagnostic stating the sample name (but not
which mate is missing — the message is the same either way), and
excludes the record from the Resolved Sample Set. -/
theorem C6_incomplete_warned_and_excluded (files : List FPath) (n : List Char) (r : SampleReads)
    (h1 : dictLookup (resolveState files).samples n = some r)
    (h2 : isComplete r = false) :
    warnMsg n ∈ (find_fastq_pairs files).warnings
    ∧ dictLookup (find_fastq_pairs files).valid n = none := by
  constructor
  · have hmem : (n, r) ∈ (resolveState files).samples := dictLookup_mem _ _ _ h1
    have hmf : (n, r) ∈ (resolveState files).samples.filter (fun e => ! isComplete e.2) := by
      rw [List.mem_filter]
      refine ⟨hmem, ?_⟩
      rw [Bool.not_eq_true']
      exact h2
    show warnMsg n ∈ ((resolveState files).samples.filter
      (fun e => ! isComplete e.2)).map (fun e => warnMsg e.1)
    exact List.mem_map.mpr ⟨(n, r), hmf, rfl⟩
  · show dictLookup ((resolveState files).samples.filter (fun e => isComplete e.2)) n = none
    exact dictLookup_filter_of_not_pred _ _ _ _ (nodupKeys_resolveState files) h1 h2

/-- Witness for the amended C6: the lone mate-1 file's sample is warned
about by name and excluded from the result. -/
theorem C6_incomplete_warned_and_excluded_witness :
    warnMsg ("sampleA".toList) ∈ (find_fastq_pairs [ exAR1only ]).warnings
    ∧ dictLookup (find_fastq_pairs [ exAR1only ]).valid ("sampleA".toList) = none :=
  C6_incomplete_warned_and_excluded [ exAR1only ] ("sampleA".toList)
    { r1 := some exAR1only, r2 := none } (by decide) (by decide)

/-- C7: resolution from a directory fails with `InvalidInput` exactly
when the directory cannot be listed; for every listable directory it
returns a result, and when no candidate is claimed by any pattern or by
the fallback, that result is a valid empty one, not an error. -/
theorem C7_error_conditions :
    resolveFromDir none = Except.error ConfigError.InvalidInput
    ∧ (∀ files : List FPath, ∃ r, resolveFromDir (some files) = Except.ok r)
    ∧ (∀ files : List FPath, (∀ f ∈ files, fileClaim f = none) →
        resolveFromDir (some files) = Except.ok { valid := [], warnings := [] }) := by
  refine ⟨rfl, fun files => ⟨find_fastq_pairs files, rfl⟩, ?_⟩
  intro files h
  have hall : ∀ f ∈ files, ∀ cl ∈ allPasses, cl f = none := by
    intro f hf
    exact (globalClassify_eq_none_iff allPasses f).mp (h f hf)
  have hpat : ∀ suf ∈ patternSufs, ∀ f ∈ files, patClassify suf f = none := by
    intro suf hsuf f hf
    exact hall f hf (patClassify suf)
      (List.mem_append.mpr (Or.inl (List.mem_map.mpr ⟨suf, hsuf, rfl⟩)))
  have hfb : ∀ f ∈ files, fallbackClassify f = none := by
    intro f hf
    exact hall f hf fallbackClassify (List.mem_append.mpr (Or.inr (by simp)))
  have hres : resolveState files = initState := by
    unfold resolveState
    rw [foldl_id_of (resolveStep fallbackClassify) files
      (fun st f hf => resolveStep_of_none _ _ _ (hfb f hf))]
    exact foldl_id_of _ patternSufs
      (fun st suf hsuf => foldl_id_of _ files
        (fun st' f hf => resolveStep_of_none _ _ _ (hpat suf hsuf f hf)) st) initState
  show Except.ok (validate (resolveState files).samples) = _
  rw [hres]
  rfl

/-- Witness for C7: a listable directory with one qualifying but
unclaimable file yields the empty result. -/
theorem C7_error_conditions_witness :
    resolveFromDir (some [ exNoMatch ]) = Except.ok { valid := [], warnings := [] } :=
  C7_error_conditions.2.2 [ exNoMatch ] (by decide)

/-- C10: in the fallback pass the mate-1 substring tests are evaluated
before the mate-2 tests, so an unmatched file whose basename contains
both a mate-1 token and a mate-2 token is stored in mate slot 1, never
in mate slot 2; moreover the `_R1_` and `_R2_` tests are redundant,
being implied by the `_R1` and `_R2` tests. -/
theorem C10_fallback_mate1_precedence :
    (∀ (st : ResolveState) (f : FPath), f ∉ st.matched →
      (infixOfB ("_R1".toList) (basename f) || infixOfB ("_1".toList) (basename f)
        || infixOfB ("_R1_".toList) (basename f)) = true →
      (infixOfB ("_R2".toList) (basename f) || infixOfB ("_2".toList) (basename f)
        || infixOfB ("_R2_".toList) (basename f)) = true →
      ∃ nm : List Char, fallbackClassify f = some (nm, Mate.R1)
        ∧ (resolveStep fallbackClassify st f).samples = setSlot st.samples nm Mate.R1 f)
    ∧ (∀ b : List Char,
      ((infixOfB ("_R1".toList) b || infixOfB ("_1".toList) b || infixOfB ("_R1_".toList) b)
        = (infixOfB ("_R1".toList) b || infixOfB ("_1".toList) b))
      ∧ ((infixOfB ("_R2".toList) b || infixOfB ("_2".toList) b || infixOfB ("_R2_".toList) b)
        = (infixOfB ("_R2".toList) b || infixOfB ("_2".toList) b))) := by
  constructor
  · intro st f hm h1 _
    have hcf : fallbackClassify f
        = some ((if infixOfB ("_R1".toList) (basename f)
            then beforeFirst ("_R1".toList) (basename f)
            else beforeFirst ("_1".toList) (basename f)), Mate.R1) := by
      unfold fallbackClassify
      rw [if_pos h1]
    refine ⟨_, hcf, ?_⟩
    rw [resolveStep_of_claim _ _ _ _ _ hm hcf]
  · intro b
    constructor
    · cases hc : infixOfB ("_R1_".toList) b
      · simp
      · have ha : infixOfB ("_R1".toList) b = true :=
          infixOfB_of_prefix _ _ _ ⟨[ '_' ], by decide⟩ hc
        rw [ha]
        simp
    · cases hc : infixOfB ("_R2_".toList) b
      · simp
      · have ha : infixOfB ("_R2".toList) b = true :=
          infixOfB_of_prefix _ _ _ ⟨[ '_' ], by decide⟩ hc
        rw [ha]
        simp

/-- Witness for C10 at a file whose basename holds both token kinds. -/
theorem C10_fallback_mate1_precedence_witness :
    (∃ nm : List Char, fallbackClassify exBothTok = some (nm, Mate.R1)
      ∧ (resolveStep fallbackClassify initState exBothTok).samples
        = setSlot initState.samples nm Mate.R1 exBothTok)
    ∧ ((infixOfB ("_R1".toList) ("a_R1_b".toList) || infixOfB ("_1".toList) ("a_R1_b".toList)
        || infixOfB ("_R1_".toList) ("a_R1_b".toList))
      = (infixOfB ("_R1".toList) ("a_R1_b".toList) || infixOfB ("_1".toList) ("a_R1_b".toList))) :=
  ⟨C10_fallback_mate1_precedence.1 initState exBothTok (by decide) (by decide) (by decide),
    (C10_fallback_mate1_precedence.2 ("a_R1_b".toList)).1⟩

/-- C2 counterexample: resolution is not order-independent as claimed.
`exX1fastq` and `exX1fq` are two distinct files both claimed by
pattern 3 for the mate-1 slot of sample `x`; reversing the enumeration
order changes which of them the Resolved Sample Set holds. -/
theorem C2_counterexample :
    exListOrd.reverse.Perm exListOrd
    ∧ dictLookup (find_fastq_pairs exListOrd).valid ("x".toList)
      = some { r1 := some exX1fq, r2 := some exX2 }
    ∧ dictLookup (find_fastq_pairs exListOrd.reverse).valid ("x".toList)
      = some { r1 := some exX1fastq, r2 := some exX2 }
    ∧ exX1fq ≠ exX1fastq := by
  refine ⟨List.reverse_perm _, by decide, by decide, by decide⟩

/-- C2 amended: resolution is order-independent provided no two distinct
candidate files are claimed for the same sample/mate slot: for any two
enumeration orders of such a set of files, the Resolved Sample Sets are
identical as mappings — every sample name is mapped to the same record. -/
theorem C2_order_independent (files₁ files₂ : List FPath) (hperm : files₁.Perm files₂)
    (huniq : UniqueClaims files₁) (n : List Char) :
    dictLookup (find_fastq_pairs files₁).valid n = dictLookup (find_fastq_pairs files₂).valid n := by
  have hu1 : ClaimUniq allPasses files₁ := claimUniq_of_uniqueClaims files₁ huniq
  have hu2 : ClaimUniq allPasses files₂ := claimUniq_perm allPasses files₁ files₂ hperm hu1
  obtain ⟨hM1, hS1, hK1⟩ := resolveState_inv files₁ hu1
  obtain ⟨hM2, hS2, hK2⟩ := resolveState_inv files₂ hu2
  have hslot : ∀ m, slotVal (resolveState files₁).samples n m
      = slotVal (resolveState files₂).samples n m := by
    intro m
    cases hv1 : slotVal (resolveState files₁).samples n m with
    | none =>
      cases hv2 : slotVal (resolveState files₂).samples n m with
      | none => rfl
      | some f =>
        obtain ⟨hfm, hfc⟩ := (hS2 n m f).mp hv2
        have hx : slotVal (resolveState files₁).samples n m = some f :=
          (hS1 n m f).mpr ⟨hperm.mem_iff.mpr hfm, hfc⟩
        rw [hx] at hv1
        exact absurd hv1 (by simp)
    | some f =>
      obtain ⟨hfm, hfc⟩ := (hS1 n m f).mp hv1
      exact ((hS2 n m f).mpr ⟨hperm.mem_iff.mp hfm, hfc⟩).symm
  have hkeyiff : (dictLookup (resolveState files₁).samples n).isSome = true
      ↔ (dictLookup (resolveState files₂).samples n).isSome = true := by
    rw [hK1 n, hK2 n]
    constructor
    · rintro ⟨f, hf, m, hc⟩
      exact ⟨f, hperm.mem_iff.mp hf, m, hc⟩
    · rintro ⟨f, hf, m, hc⟩
      exact ⟨f, hperm.mem_iff.mpr hf, m, hc⟩
  have hsame : dictLookup (resolveState files₁).samples n
      = dictLookup (resolveState files₂).samples n := by
    cases hl1 : dictLookup (resolveState files₁).samples n with
    | none =>
      cases hl2 : dictLookup (resolveState files₂).samples n with
      | none => rfl
      | some r2 =>
        exfalso
        have := hkeyiff.mpr (by rw [hl2]; rfl)
        rw [hl1] at this
        exact absurd this (by simp)
    | some r1 =>
      cases hl2 : dictLookup (resolveState files₂).samples n with
      | none =>
        exfalso
        have := hkeyiff.mp (by rw [hl1]; rfl)
        rw [hl2] at this
        exact absurd this (by simp)
      | some r2 =>
        have e1 : slotGet r1 Mate.R1 = slotGet r2 Mate.R1 := by
          rw [← slotVal_of_dictLookup _ _ _ _ hl1, ← slotVal_of_dictLookup _ _ _ _ hl2]
          exact hslot Mate.R1
        have e2 : slotGet r1 Mate.R2 = slotGet r2 Mate.R2 := by
          rw [← slotVal_of_dictLookup _ _ _ _ hl1, ← slotVal_of_dictLookup _ _ _ _ hl2]
          exact hslot Mate.R2
        obtain ⟨a1, b1⟩ := r1
        obtain ⟨a2, b2⟩ := r2
        have e1' : a1 = a2 := e1
        have e2' : b1 = b2 := e2
        rw [e1', e2']
  show dictLookup ((resolveState files₁).samples.filter (fun e => isComplete e.2)) n
      = dictLookup ((resolveState files₂).samples.filter (fun e => isComplete e.2)) n
  cases hl1 : dictLookup (resolveState files₁).samples n with
  | none =>
    have hl2 : dictLookup (resolveState files₂).samples n = none := hsame.symm.trans hl1
    rw [dictLookup_filter_none _ _ _ hl1, dictLookup_filter_none _ _ _ hl2]
  | some r =>
    have hl2 : dictLookup (resolveState files₂).samples n = some r := hsame.symm.trans hl1
    cases hc : isComplete r
    · rw [dictLookup_filter_of_not_pred _ _ _ _ (nodupKeys_resolveState files₁) hl1 hc,
        dictLookup_filter_of_not_pred _ _ _ _ (nodupKeys_resolveState files₂) hl2 hc]
    · rw [dictLookup_filter_of_pred _ _ _ _ hl1 hc, dictLookup_filter_of_pred _ _ _ _ hl2 hc]

/-- Witness for the amended C2: a conflict-free pair of mates resolves
identically under reversal. -/
theorem C2_order_independent_witness :
    dictLookup (find_fastq_pairs exPair).valid ("x".toList)
      = dictLookup (find_fastq_pairs exPair.reverse).valid ("x".toList) :=
  C2_order_independent exPair exPair.reverse (List.reverse_perm exPair).symm
    (by unfold UniqueClaims; decide) ("x".toList)
